import Mathlib

/-!
A shallow embedding of the m4rs macro processor, translated from
`src/ast.rs` and `src/processor.rs`, together with theorems checking the
specification's claims about the expansion engine.

The pest grammar (`m4.pest`) and hence the concrete parser are not part of the
expansion engine; the engine only calls the parser through one entry point, so
every definition below is parametric in a `parse` function of the parser's
type.  Rust `Cow` strings (borrowed or owned) are both modelled as `String`,
so `into_owned` is the identity and is not modelled separately.
-/

namespace M4rs

/-- Embeds `Token` from `src/ast.rs`. -/
inductive Token where
  | MacroCall (name : String) (args : List Token)
  | Positional (n : Nat)
  | Literal (s : String)
  | Group (lexeme : String) (tokens : List Token)
deriving Repr

/-- Embeds `MacroRegistry` from `src/processor.rs`: a map from macro name to
raw body tokens.  The Rust `HashMap` is modelled as an association list in
which the most recent binding for a name shadows older ones; this agrees with
`HashMap` on the only observations the code makes (`get` and `is_defined`). -/
abbrev MacroRegistry := List (String × List Token)

/-- Embeds `MacroRegistry::define`: unconditional insert/overwrite. -/
def MacroRegistry.define (r : MacroRegistry) (name : String) (body : List Token) :
    MacroRegistry :=
  (name, body) :: r

/-- Embeds `MacroRegistry::get`. -/
def MacroRegistry.get (r : MacroRegistry) (name : String) : Option (List Token) :=
  match r with
  | [] => none
  | (k, v) :: rest => if k = name then some v else MacroRegistry.get rest name

/-- Embeds `MacroRegistry::is_defined`. -/
def MacroRegistry.is_defined (r : MacroRegistry) (name : String) : Bool :=
  (r.get name).isSome

/-- Embeds the `max_depth = 100` fixed by `Expander::new`. -/
def max_depth : Nat := 100

/-- The error message produced when the recursion guard trips. -/
def depthErr : String := "Maximum expansion depth exceeded"

/-- The open-quote character of a quoted group. -/
def openQuote : Char := Char.ofNat 96

/-- The close-quote character of a quoted group. -/
def closeQuote : Char := Char.ofNat 39

/-- Model of Rust `str::trim`: surrounding whitespace is removed from both
ends.  (Defined structurally over the character list so that it evaluates in
the kernel; `Char.isWhitespace` plays the role of Rust `char::is_whitespace`.) -/
def str_trim (s : String) : String :=
  ⟨(((s.data.dropWhile Char.isWhitespace).reverse).dropWhile Char.isWhitespace).reverse⟩

/-- Model of `Vec::join(sep)` on the expanded argument strings. -/
def str_join (sep : String) : List String → String
  | [] => ""
  | [x] => x
  | x :: rest => x ++ sep ++ str_join sep rest

/-- The quotedness test `lexeme.starts_with(openQuote) &&
lexeme.ends_with(closeQuote)` used by `expand_token` and `expand_argument`:
decided solely by the first and last characters of the lexeme. -/
def is_quoted (lexeme : String) : Bool :=
  lexeme.data.head? == some openQuote && lexeme.data.getLast? == some closeQuote

/-- The slice `lexeme[1..lexeme.len() - 1]`: the raw content of a quoted
lexeme between its two one-byte delimiter characters, i.e. the lexeme without
its first and last character. -/
def unquote (lexeme : String) : String :=
  ⟨(lexeme.data.drop 1).dropLast⟩

/-- The set of builtin macro names dispatched by name in
`Expander::expand_macro_call` and tested in `Expander::expand_argument`. -/
def is_builtin (name : String) : Bool :=
  name == "define" || name == "ifelse" || name == "ifdef" || name == "dnl"

mutual
/-- Embeds `Expander::extract_text`. -/
def extract_text (t : Token) (parent_args : List String) : String :=
  match t with
  | .Literal s => s
  | .Positional n =>
    if 0 < n ∧ n ≤ parent_args.length then parent_args.getD (n - 1) "" else ""
  | .Group _ tokens => extract_text_list tokens parent_args
  | .MacroCall name args => if args.isEmpty then name else ""

/-- The concatenation loop of `extract_text` over a group's inner tokens. -/
def extract_text_list (ts : List Token) (parent_args : List String) : String :=
  match ts with
  | [] => ""
  | t :: rest => extract_text t parent_args ++ extract_text_list rest parent_args
end

/-- Embeds `Expander::extract_body_tokens` (`into_owned` is the identity in
this embedding). -/
def extract_body_tokens (t : Token) : List Token :=
  match t with
  | .Group _ tokens => tokens
  | _ => [t]

section Expansion

variable (parse : String → Except String (List Token))

mutual
/-- Embeds `Expander::expand_tokens_with_depth`. -/
def expand_tokens_with_depth (tokens : List Token) (args : List String) (depth : Nat)
    (r : MacroRegistry) : Except String (String × MacroRegistry) :=
  if max_depth < depth then .error depthErr
  else expand_tokens_go tokens args depth r
termination_by (2 * (max_depth + 1 - depth), sizeOf tokens, 3)

/-- The `for token in tokens` accumulation loop of
`expand_tokens_with_depth`, modelled as recursion on the token list. -/
def expand_tokens_go (tokens : List Token) (args : List String) (depth : Nat)
    (r : MacroRegistry) : Except String (String × MacroRegistry) :=
  match tokens with
  | [] => .ok ("", r)
  | t :: rest =>
    match expand_token t args depth r with
    | .error e => .error e
    | .ok (s, r₁) =>
      match expand_tokens_go rest args depth r₁ with
      | .error e => .error e
      | .ok (s', r₂) => .ok (s ++ s', r₂)
termination_by (2 * (max_depth + 1 - depth), sizeOf tokens, 2)

/-- Embeds `Expander::expand_token`. -/
def expand_token (t : Token) (args : List String) (depth : Nat)
    (r : MacroRegistry) : Except String (String × MacroRegistry) :=
  match t with
  | .MacroCall name margs => expand_macro_call name margs args depth r
  | .Positional n =>
    if 0 < n ∧ n ≤ args.length then .ok (args.getD (n - 1) "", r)
    else .ok ("", r)
  | .Literal s => .ok (s, r)
  | .Group lexeme tokens =>
    if is_quoted lexeme then .ok (unquote lexeme, r)
    else expand_tokens_with_depth tokens args depth r
termination_by (2 * (max_depth + 1 - depth), sizeOf t, 1)

/-- Embeds `Expander::expand_macro_call`. -/
def expand_macro_call (name : String) (margs : List Token) (parent_args : List String)
    (depth : Nat) (r : MacroRegistry) : Except String (String × MacroRegistry) :=
  match name with
  | "define" =>
    match margs with
    | a0 :: a1 :: _ =>
      match expand_token a0 parent_args depth r with
      | .error e => .error e
      | .ok (n, r₁) => .ok ("", r₁.define (str_trim n) (extract_body_tokens a1))
    | _ => .ok ("", r)
  | "ifelse" => expand_ifelse margs parent_args depth r
  | "ifdef" => expand_ifdef margs parent_args depth r
  | "dnl" => .ok ("", r)
  | _ =>
    match expand_arguments margs parent_args depth r with
    | .error e => .error e
    | .ok (expanded_args, r₁) =>
      match r₁.get name with
      | some body =>
        -- the callee fails at once when `depth + 1` exceeds the bound; the
        -- test is hoisted here so the recursion has a decreasing measure
        if max_depth < depth + 1 then .error depthErr
        else
          match expand_tokens_with_depth body expanded_args (depth + 1) r₁ with
          | .error e => .error e
          | .ok (expanded, r₂) => rescan expanded (depth + 1) r₂
      | none =>
        if expanded_args.isEmpty then .ok (name, r₁)
        else .ok (name ++ "(" ++ str_join ", " expanded_args ++ ")", r₁)
termination_by (2 * (max_depth + 1 - depth), sizeOf margs, 5)

/-- Embeds `Expander::expand_arguments`. -/
def expand_arguments (margs : List Token) (parent_args : List String) (depth : Nat)
    (r : MacroRegistry) : Except String (List String × MacroRegistry) :=
  match margs with
  | [] => .ok ([], r)
  | a :: rest =>
    match expand_argument a parent_args depth r with
    | .error e => .error e
    | .ok (s, r₁) =>
      match expand_arguments rest parent_args depth r₁ with
      | .error e => .error e
      | .ok (ss, r₂) => .ok (s :: ss, r₂)
termination_by (2 * (max_depth + 1 - depth), sizeOf margs, 4)

/-- Embeds `Expander::expand_argument`. -/
def expand_argument (arg : Token) (parent_args : List String) (depth : Nat)
    (r : MacroRegistry) : Except String (String × MacroRegistry) :=
  match arg with
  | .MacroCall name margs =>
    if is_builtin name then expand_macro_call name margs parent_args depth r
    else if r.is_defined name then expand_macro_call name margs parent_args depth r
    else expand_token (.MacroCall name margs) parent_args depth r
  | .Group lexeme tokens =>
    if is_quoted lexeme then .ok (unquote lexeme, r)
    else expand_tokens_with_depth tokens parent_args depth r
  | .Positional n => expand_token (.Positional n) parent_args depth r
  | .Literal s => expand_token (.Literal s) parent_args depth r
termination_by (2 * (max_depth + 1 - depth), sizeOf arg, 2)

/-- Embeds `Expander::expand_ifelse`.  The Rust `while i + 2 < args.len()`
loop with `i += 3` is modelled as recursion on the remaining argument list:
the guard `i + 2 < len` holds exactly when at least three arguments remain. -/
def expand_ifelse (margs : List Token) (parent_args : List String) (depth : Nat)
    (r : MacroRegistry) : Except String (String × MacroRegistry) :=
  match margs with
  | a :: b :: t :: rest =>
    match expand_token a parent_args depth r with
    | .error e => .error e
    | .ok (av, r₁) =>
      match expand_token b parent_args depth r₁ with
      | .error e => .error e
      | .ok (bv, r₂) =>
        if str_trim av = str_trim bv then
          match expand_token t parent_args depth r₂ with
          | .error e => .error e
          | .ok (tv, r₃) => .ok (str_trim tv, r₃)
        else expand_ifelse rest parent_args depth r₂
  | [] => .ok ("", r)
  | x :: _ =>
    match expand_token x parent_args depth r with
    | .error e => .error e
    | .ok (xv, r₁) => .ok (str_trim xv, r₁)
termination_by (2 * (max_depth + 1 - depth), sizeOf margs, 4)

/-- The `expand_token(..)?.trim().to_string()` step shared by the branch
arms of `expand_ifdef`. -/
def expand_trimmed (t : Token) (parent_args : List String) (depth : Nat)
    (r : MacroRegistry) : Except String (String × MacroRegistry) :=
  match expand_token t parent_args depth r with
  | .error e => .error e
  | .ok (s, r₁) => .ok (str_trim s, r₁)
termination_by (2 * (max_depth + 1 - depth), sizeOf t, 3)

/-- Embeds `Expander::expand_ifdef`. -/
def expand_ifdef (margs : List Token) (parent_args : List String) (depth : Nat)
    (r : MacroRegistry) : Except String (String × MacroRegistry) :=
  match margs with
  | [] => .ok ("", r)
  -- with a single argument the defined branch (then absent) and the
  -- undefined branch (else absent) both produce empty output
  | [_] => .ok ("", r)
  | a0 :: a1 :: rest =>
    if r.is_defined (str_trim (extract_text a0 parent_args)) then
      expand_trimmed a1 parent_args depth r
    else
      match rest with
      | a2 :: _ => expand_trimmed a2 parent_args depth r
      | [] => .ok ("", r)
termination_by (2 * (max_depth + 1 - depth), sizeOf margs, 4)

/-- Embeds `Expander::rescan`. -/
def rescan (text : String) (depth : Nat) (r : MacroRegistry) :
    Except String (String × MacroRegistry) :=
  if max_depth < depth then .error depthErr
  else
    match parse text with
    | .ok tokens => expand_tokens_with_depth tokens [] depth r
    | .error _ => .ok (text, r)
termination_by (2 * (max_depth + 1 - depth) + 1, 0, 0)
end

/-- Embeds `Expander::expand_tokens`: top-level token expansion with no
positional arguments at depth 0. -/
def expand_tokens (tokens : List Token) (r : MacroRegistry) :
    Except String (String × MacroRegistry) :=
  expand_tokens_with_depth parse tokens [] 0 r

/-- Embeds `Expander::expand`: parse the input, then expand the tokens. -/
def expand (input : String) (r : MacroRegistry) :
    Except String (String × MacroRegistry) :=
  match parse input with
  | .error e => .error e
  | .ok tokens => expand_tokens_with_depth parse tokens [] 0 r

/-- Embeds `MacroRegistry::load`: an `Expander` is run on a clone of the
registry and the clone is written back only when expansion succeeds.  The
`&mut self` receiver together with the `Result<(), String>` return value is
modelled as a pair (registry after the call, outcome). -/
def MacroRegistry.load (r : MacroRegistry) (source : String) :
    MacroRegistry × Except String Unit :=
  match expand parse source r with
  | .ok (_, r') => (r', .ok ())
  | .error e => (r, .error e)

end Expansion

/-! Concrete instances used to exercise the definitions on closed inputs. -/

/-- A concrete parser model: any text parses to a single literal token
holding the whole text. -/
def parse_lit : String → Except String (List Token) :=
  fun s => .ok [.Literal s]

/-- A concrete parser model that always fails. -/
def parse_fail : String → Except String (List Token) :=
  fun _ => .error "bad input"

/-- A concrete parser model whose output defines a self-recursive macro
`loop` and then calls it. -/
def parse_loop : String → Except String (List Token) :=
  fun _ => .ok
    [.MacroCall "define" [.Literal "loop", .MacroCall "loop" []],
     .MacroCall "loop" []]

/-- A registry binding `wrapper` to `[$1]` and `inner` to `EXPANDED`. -/
def regW : MacroRegistry :=
  [("wrapper", [.Literal "[", .Positional 1, .Literal "]"]),
   ("inner", [.Literal "EXPANDED"])]

/-- A registry binding `baz` to a body that calls `foo`, and `foo` to
`bar`. -/
def regBaz : MacroRegistry :=
  [("baz", [.MacroCall "foo" []]), ("foo", [.Literal "bar"])]

/-- A concrete quoted lexeme built from the delimiter characters, with
content `foo`. -/
def qlex : String :=
  ⟨[openQuote, 'f', 'o', 'o', closeQuote]⟩

/-! Helper lemmas shared by the claim theorems below. -/

/-- The depth guard of `expand_tokens_with_depth` fires before any token is
processed. -/
theorem etd_exceeded (parse : String → Except String (List Token))
    (ts : List Token) (args : List String) (d : Nat) (r : MacroRegistry)
    (h : max_depth < d) :
    expand_tokens_with_depth parse ts args d r = .error depthErr := by
  rw [expand_tokens_with_depth.eq_def, if_pos h]

/-- Below the depth bound, `expand_tokens_with_depth` is its token loop. -/
theorem etd_le (parse : String → Except String (List Token))
    (ts : List Token) (args : List String) (d : Nat) (r : MacroRegistry)
    (h : d ≤ max_depth) :
    expand_tokens_with_depth parse ts args d r = expand_tokens_go parse ts args d r := by
  rw [expand_tokens_with_depth.eq_def, if_neg (by omega)]

/-- The user-macro branch of `expand_macro_call`, for any non-builtin name. -/
theorem emc_user (parse : String → Except String (List Token))
    (name : String) (margs : List Token) (pargs : List String) (d : Nat) (r : MacroRegistry)
    (h : is_builtin name = false) :
    expand_macro_call parse name margs pargs d r =
      match expand_arguments parse margs pargs d r with
      | .error e => .error e
      | .ok (expanded_args, r₁) =>
        match r₁.get name with
        | some body =>
          if max_depth < d + 1 then .error depthErr
          else
            match expand_tokens_with_depth parse body expanded_args (d + 1) r₁ with
            | .error e => .error e
            | .ok (expanded, r₂) => rescan parse expanded (d + 1) r₂
        | none =>
          if expanded_args.isEmpty then .ok (name, r₁)
          else .ok (name ++ "(" ++ str_join ", " expanded_args ++ ")", r₁) := by
  rw [expand_macro_call.eq_def]
  split
  · simp [is_builtin] at h
  · simp [is_builtin] at h
  · simp [is_builtin] at h
  · simp [is_builtin] at h
  · rfl

/-- The user-macro branch for a defined name, stated without the hoisted
depth test: the test is absorbed by the first action of the callee. -/
theorem emc_user_defined (parse : String → Except String (List Token))
    (name : String) (margs : List Token) (pargs : List String) (d : Nat)
    (r r₁ : MacroRegistry) (eargs : List String) (body : List Token)
    (h : is_builtin name = false)
    (ha : expand_arguments parse margs pargs d r = .ok (eargs, r₁))
    (hg : r₁.get name = some body) :
    expand_macro_call parse name margs pargs d r =
      match expand_tokens_with_depth parse body eargs (d + 1) r₁ with
      | .error e => .error e
      | .ok (expanded, r₂) => rescan parse expanded (d + 1) r₂ := by
  rw [emc_user parse name margs pargs d r h, ha]
  simp only [hg]
  by_cases hd : max_depth < d + 1
  · rw [if_pos hd, etd_exceeded parse body eargs (d + 1) r₁ hd]
  · rw [if_neg hd]

/-- A macro bound to a body that just calls the macro itself expands to the
depth-exceeded error at every depth. -/
theorem emc_self_recursion (parse : String → Except String (List Token))
    (name : String) (r : MacroRegistry)
    (hb : is_builtin name = false)
    (hg : r.get name = some [Token.MacroCall name []]) :
    ∀ (d : Nat) (pargs : List String),
      expand_macro_call parse name [] pargs d r = .error depthErr := by
  suffices h : ∀ (k d : Nat) (pargs : List String), max_depth ≤ d + k →
      expand_macro_call parse name [] pargs d r = .error depthErr by
    intro d pargs
    exact h max_depth d pargs (by omega)
  intro k
  induction k with
  | zero =>
    intro d pargs hk
    rw [emc_user parse name [] pargs d r hb]
    simp only [expand_arguments, hg]
    rw [if_pos (show max_depth < d + 1 by omega)]
  | succ k ih =>
    intro d pargs hk
    rw [emc_user parse name [] pargs d r hb]
    simp only [expand_arguments, hg]
    by_cases hd : max_depth < d + 1
    · rw [if_pos hd]
    · rw [if_neg hd, etd_le parse _ _ _ _ (by omega)]
      simp only [expand_tokens_go, expand_token]
      rw [ih (d + 1) [] (by omega)]

/-- Loading a source whose expansion fails returns the error and keeps the
starting registry. -/
theorem load_eq_error (parse : String → Except String (List Token))
    (r : MacroRegistry) (source e : String)
    (h : expand parse source r = .error e) :
    MacroRegistry.load parse r source = (r, .error e) := by
  simp only [MacroRegistry.load, h]

/-! The claim theorems. -/

/-- C4: expanding a `Group` token whose lexeme starts with the open quote and
ends with the close quote yields exactly the raw lexeme content between the
two delimiters, ignoring the group's parsed inner tokens; a `Group` whose
lexeme is not so delimited expands to the concatenated expansion of its inner
tokens; and quotedness is decided solely by the first and last characters of
the lexeme. -/
theorem claim_C4_group_quoting :
    (∀ (parse : String → Except String (List Token)) lex toks pargs d (r : MacroRegistry),
      is_quoted lex = true →
      expand_token parse (.Group lex toks) pargs d r = .ok (unquote lex, r)) ∧
    (∀ (parse : String → Except String (List Token)) lex toks pargs d (r : MacroRegistry),
      is_quoted lex = false →
      expand_token parse (.Group lex toks) pargs d r =
        expand_tokens_with_depth parse toks pargs d r) ∧
    (∀ mid : String,
      unquote (String.singleton openQuote ++ mid ++ String.singleton closeQuote) = mid) ∧
    (∀ mid : String,
      is_quoted (String.singleton openQuote ++ mid ++ String.singleton closeQuote) = true) ∧
    (∀ l₁ l₂ : String,
      l₁.data.head? = l₂.data.head? → l₁.data.getLast? = l₂.data.getLast? →
      is_quoted l₁ = is_quoted l₂) := by
  refine ⟨?_, ?_, ?_, ?_, ?_⟩
  · intro parse lex toks pargs d r h
    rw [expand_token.eq_def]
    simp only [h, if_pos]
  · intro parse lex toks pargs d r h
    rw [expand_token.eq_def]
    simp only [h]
    rw [if_neg (by simp)]
  · intro mid
    simp [unquote, String.singleton]
  · intro mid
    simp only [is_quoted, String.data_append, String.data_singleton]
    rw [show ([openQuote] ++ mid.data ++ [closeQuote] : List Char) =
      (openQuote :: mid.data) ++ [closeQuote] by simp, List.getLast?_concat]
    simp
  · intro l₁ l₂ h₁ h₂
    simp [is_quoted, h₁, h₂]

/-- C4 witness: a concrete quoted group whose inner token is a macro call
expands to its literal content with the call left unexpanded. -/
theorem claim_C4_witness :
    expand_token parse_lit (.Group qlex [.MacroCall "foo" []]) [] 0 [] = .ok ("foo", []) := by
  have h := claim_C4_group_quoting.1 parse_lit qlex [.MacroCall "foo" []] [] 0 []
    (by decide)
  rw [h]
  rfl

/-- C10: an ifelse call with fewer than three arguments performs no
comparison; with no arguments it yields the empty string, and with one or two
arguments the first argument is expanded, trimmed, and returned, the second
(when present) being ignored. -/
theorem claim_C10_ifelse_short :
    (∀ (parse : String → Except String (List Token)) pargs d (r : MacroRegistry),
      expand_ifelse parse [] pargs d r = .ok ("", r)) ∧
    (∀ (parse : String → Except String (List Token)) x pargs d (r : MacroRegistry),
      expand_ifelse parse [x] pargs d r =
        match expand_token parse x pargs d r with
        | .error e => .error e
        | .ok (xv, r₁) => .ok (str_trim xv, r₁)) ∧
    (∀ (parse : String → Except String (List Token)) x y pargs d (r : MacroRegistry),
      expand_ifelse parse [x, y] pargs d r =
        match expand_token parse x pargs d r with
        | .error e => .error e
        | .ok (xv, r₁) => .ok (str_trim xv, r₁)) := by
  refine ⟨?_, ?_, ?_⟩
  · intro parse pargs d r
    rw [expand_ifelse.eq_def]
  · intro parse x pargs d r
    rw [expand_ifelse.eq_def]
  · intro parse x y pargs d r
    rw [expand_ifelse.eq_def]

/-- C2: an ifelse call with at least three arguments is processed in groups
of three: the first two members are expanded and compared after trimming; on
equality the third member's trimmed expansion is returned at once, later
arguments never being evaluated; on inequality processing moves to the next
group; once fewer than three arguments remain, the leftover argument (when
one exists) is expanded, trimmed, and returned as the else branch, and with
no leftover the result is empty. -/
theorem claim_C2_ifelse_triples :
    (∀ (parse : String → Except String (List Token)) a b t rest pargs d
        (r r₁ r₂ : MacroRegistry) av bv,
      expand_token parse a pargs d r = .ok (av, r₁) →
      expand_token parse b pargs d r₁ = .ok (bv, r₂) →
      str_trim av = str_trim bv →
      expand_ifelse parse (a :: b :: t :: rest) pargs d r =
        match expand_token parse t pargs d r₂ with
        | .error e => .error e
        | .ok (tv, r₃) => .ok (str_trim tv, r₃)) ∧
    (∀ (parse : String → Except String (List Token)) a b t rest pargs d
        (r r₁ r₂ : MacroRegistry) av bv,
      expand_token parse a pargs d r = .ok (av, r₁) →
      expand_token parse b pargs d r₁ = .ok (bv, r₂) →
      str_trim av ≠ str_trim bv →
      expand_ifelse parse (a :: b :: t :: rest) pargs d r =
        expand_ifelse parse rest pargs d r₂) ∧
    (∀ (parse : String → Except String (List Token)) x pargs d (r : MacroRegistry),
      expand_ifelse parse [x] pargs d r =
        match expand_token parse x pargs d r with
        | .error e => .error e
        | .ok (xv, r₁) => .ok (str_trim xv, r₁)) ∧
    (∀ (parse : String → Except String (List Token)) x y pargs d (r : MacroRegistry),
      expand_ifelse parse [x, y] pargs d r =
        match expand_token parse x pargs d r with
        | .error e => .error e
        | .ok (xv, r₁) => .ok (str_trim xv, r₁)) ∧
    (∀ (parse : String → Except String (List Token)) pargs d (r : MacroRegistry),
      expand_ifelse parse [] pargs d r = .ok ("", r)) := by
  refine ⟨?_, ?_, ?_, ?_, ?_⟩
  · intro parse a b t rest pargs d r r₁ r₂ av bv ha hb heq
    rw [expand_ifelse.eq_def]
    simp only [ha, hb]
    rw [if_pos heq]
  · intro parse a b t rest pargs d r r₁ r₂ av bv ha hb hne
    rw [expand_ifelse.eq_def]
    simp only [ha, hb]
    rw [if_neg hne]
  · intro parse x pargs d r
    rw [expand_ifelse.eq_def]
  · intro parse x y pargs d r
    rw [expand_ifelse.eq_def]
  · intro parse pargs d r
    rw [expand_ifelse.eq_def]

/-- C2 witness: `ifelse(a, a, hello, no)` takes the then branch and
`ifelse(a, b, hello, no)` falls through to the else branch. -/
theorem claim_C2_witness :
    expand_ifelse parse_lit
      [.Literal "a", .Literal "a", .Literal "hello", .Literal "no"] [] 0 [] =
      .ok ("hello", []) ∧
    expand_ifelse parse_lit
      [.Literal "a", .Literal "b", .Literal "hello", .Literal "no"] [] 0 [] =
      .ok ("no", []) := by
  constructor
  · have h := claim_C2_ifelse_triples.1 parse_lit
      (.Literal "a") (.Literal "a") (.Literal "hello") [.Literal "no"]
      [] 0 [] [] [] "a" "a" (by simp [expand_token]) (by simp [expand_token]) rfl
    rw [h]
    simp [expand_token]
    rfl
  · have h := claim_C2_ifelse_triples.2.1 parse_lit
      (.Literal "a") (.Literal "b") (.Literal "hello") [.Literal "no"]
      [] 0 [] [] [] "a" "b" (by simp [expand_token]) (by simp [expand_token]) (by decide)
    rw [h]
    have h2 := claim_C2_ifelse_triples.2.2.1 parse_lit (.Literal "no") [] 0 []
    rw [h2]
    simp [expand_token]
    rfl

/-- C3: a define call with at least two arguments expands argument 0 and
trims it to obtain the macro name, stores argument 1's raw tokens (a group
contributes its inner tokens, any other argument becomes a one-element body)
in the registry under that name replacing any previous entry, and produces
empty output; because bodies are stored raw, a body naming another macro is
resolved against the registry at call time, so redefining the referenced
macro changes the expansion. -/
theorem claim_C3_define :
    (∀ (parse : String → Except String (List Token)) a0 a1 rest pargs d
        (r r₁ : MacroRegistry) n,
      expand_token parse a0 pargs d r = .ok (n, r₁) →
      expand_macro_call parse "define" (a0 :: a1 :: rest) pargs d r =
        .ok ("", r₁.define (str_trim n) (extract_body_tokens a1))) ∧
    (∀ lex toks, extract_body_tokens (.Group lex toks) = toks) ∧
    (∀ n, extract_body_tokens (.Positional n) = [.Positional n]) ∧
    (∀ s, extract_body_tokens (.Literal s) = [.Literal s]) ∧
    (∀ name margs, extract_body_tokens (.MacroCall name margs) = [.MacroCall name margs]) ∧
    (∀ (r : MacroRegistry) name body, (r.define name body).get name = some body) ∧
    (∀ (r : MacroRegistry) name body m, m ≠ name → (r.define name body).get m = r.get m) ∧
    (expand_macro_call parse_lit "baz" [] [] 0 regBaz = .ok ("bar", regBaz) ∧
      expand_macro_call parse_lit "baz" [] [] 0 (regBaz.define "foo" [.Literal "qux"]) =
        .ok ("qux", regBaz.define "foo" [.Literal "qux"])) := by
  refine ⟨?_, fun _ _ => rfl, fun _ => rfl, fun _ => rfl, fun _ _ => rfl, ?_, ?_, ?_, ?_⟩
  · intro parse a0 a1 rest pargs d r r₁ n ha
    rw [expand_macro_call.eq_def]
    simp only [ha]
  · intro r name body
    simp [MacroRegistry.define, MacroRegistry.get]
  · intro r name body m h
    simp [MacroRegistry.define, MacroRegistry.get, Ne.symm h]
  · simp [expand_macro_call, expand_arguments, expand_tokens_with_depth,
      expand_tokens_go, expand_token, rescan, parse_lit, MacroRegistry.get,
      regBaz, max_depth]
  · simp [expand_macro_call, expand_arguments, expand_tokens_with_depth,
      expand_tokens_go, expand_token, rescan, parse_lit, MacroRegistry.get,
      MacroRegistry.define, regBaz, max_depth]

/-- C3 witness: `define(foo, bar)` stores `bar` under `foo` and produces
empty output. -/
theorem claim_C3_witness :
    expand_macro_call parse_lit "define" [.Literal "foo", .Literal "bar"] [] 0 [] =
      .ok ("", [("foo", [.Literal "bar"])]) := by
  have h := claim_C3_define.1 parse_lit (.Literal "foo") (.Literal "bar") [] [] 0
    [] [] "foo" (by simp [expand_token])
  rw [h]
  rfl

/-- C5: an ifdef call with at least one argument extracts the first
argument's literal textual identity without expanding it (a bare macro-call
token with no arguments yields its name, one with arguments yields the empty
string, a literal yields its text, a group concatenates the extracted text of
its inner tokens, a positional reference is substituted from the caller's
arguments) and trims it; if that name is defined in the registry the second
argument's trimmed expansion is returned (empty when absent), otherwise the
third argument's trimmed expansion is returned when present and the empty
string otherwise. -/
theorem claim_C5_ifdef :
    (∀ (parse : String → Except String (List Token)) a0 a1 rest pargs d
        (r : MacroRegistry),
      r.is_defined (str_trim (extract_text a0 pargs)) = true →
      expand_ifdef parse (a0 :: a1 :: rest) pargs d r =
        match expand_token parse a1 pargs d r with
        | .error e => .error e
        | .ok (s, r₁) => .ok (str_trim s, r₁)) ∧
    (∀ (parse : String → Except String (List Token)) a0 pargs d (r : MacroRegistry),
      r.is_defined (str_trim (extract_text a0 pargs)) = true →
      expand_ifdef parse [a0] pargs d r = .ok ("", r)) ∧
    (∀ (parse : String → Except String (List Token)) a0 a1 a2 rest pargs d
        (r : MacroRegistry),
      r.is_defined (str_trim (extract_text a0 pargs)) = false →
      expand_ifdef parse (a0 :: a1 :: a2 :: rest) pargs d r =
        match expand_token parse a2 pargs d r with
        | .error e => .error e
        | .ok (s, r₁) => .ok (str_trim s, r₁)) ∧
    (∀ (parse : String → Except String (List Token)) a0 a1 pargs d (r : MacroRegistry),
      r.is_defined (str_trim (extract_text a0 pargs)) = false →
      expand_ifdef parse [a0, a1] pargs d r = .ok ("", r)) ∧
    (∀ (parse : String → Except String (List Token)) a0 pargs d (r : MacroRegistry),
      r.is_defined (str_trim (extract_text a0 pargs)) = false →
      expand_ifdef parse [a0] pargs d r = .ok ("", r)) ∧
    (∀ name pargs, extract_text (.MacroCall name []) pargs = name) ∧
    (∀ name margs pargs, margs ≠ [] → extract_text (.MacroCall name margs) pargs = "") ∧
    (∀ s pargs, extract_text (.Literal s) pargs = s) ∧
    (∀ lex toks pargs, extract_text (.Group lex toks) pargs = extract_text_list toks pargs) ∧
    (∀ t rest pargs, extract_text_list (t :: rest) pargs =
      extract_text t pargs ++ extract_text_list rest pargs) ∧
    (∀ n pargs, 0 < n → n ≤ pargs.length →
      extract_text (.Positional n) pargs = pargs.getD (n - 1) "") := by
  refine ⟨?_, ?_, ?_, ?_, ?_, ?_, ?_, ?_, ?_, ?_, ?_⟩
  · intro parse a0 a1 rest pargs d r h
    rw [expand_ifdef.eq_def]
    simp only [h, if_true]
    rw [expand_trimmed.eq_def]
  · intro parse a0 pargs d r h
    rw [expand_ifdef.eq_def]
  · intro parse a0 a1 a2 rest pargs d r h
    rw [expand_ifdef.eq_def]
    simp only [h, Bool.false_eq_true, if_false]
    rw [expand_trimmed.eq_def]
  · intro parse a0 a1 pargs d r h
    rw [expand_ifdef.eq_def]
    simp only [h, Bool.false_eq_true, if_false]
  · intro parse a0 pargs d r h
    rw [expand_ifdef.eq_def]
  · intro name pargs
    simp [extract_text]
  · intro name margs pargs h
    cases margs with
    | nil => exact absurd rfl h
    | cons a rest => simp [extract_text]
  · intro s pargs
    simp [extract_text]
  · intro lex toks pargs
    simp [extract_text]
  · intro t rest pargs
    simp [extract_text_list]
  · intro n pargs h1 h2
    rw [extract_text.eq_def]
    simp only [if_pos (And.intro h1 h2)]

/-- C5 witness: with `DEBUG` defined, `ifdef(DEBUG, yes, no)` yields `yes`;
the name is taken from the bare macro-call token without expansion. -/
theorem claim_C5_witness :
    expand_ifdef parse_lit [.MacroCall "DEBUG" [], .Literal "yes", .Literal "no"]
      [] 0 [("DEBUG", [.Literal "1"])] = .ok ("yes", [("DEBUG", [.Literal "1"])]) := by
  have h := claim_C5_ifdef.1 parse_lit (.MacroCall "DEBUG" []) (.Literal "yes")
    [.Literal "no"] [] 0 [("DEBUG", [.Literal "1"])] (by decide)
  rw [h]
  simp [expand_token]
  rfl

/-- C8: none of the permissive cases is an error: positional references out
of range expand to the empty string, a call to a name that is neither builtin
nor defined is reproduced from the already-expanded argument strings, a
define call with fewer than two arguments produces empty output and leaves
the registry unchanged, and an ifdef call with no arguments produces empty
output. -/
theorem claim_C8_permissive :
    (∀ (parse : String → Except String (List Token)) args d (r : MacroRegistry),
      expand_token parse (.Positional 0) args d r = .ok ("", r)) ∧
    (∀ (parse : String → Except String (List Token)) n args d (r : MacroRegistry),
      args.length < n →
      expand_token parse (.Positional n) args d r = .ok ("", r)) ∧
    (∀ (parse : String → Except String (List Token)) name margs pargs d
        (r r₁ : MacroRegistry) eargs,
      is_builtin name = false →
      expand_arguments parse margs pargs d r = .ok (eargs, r₁) →
      r₁.get name = none →
      expand_macro_call parse name margs pargs d r =
        .ok (if eargs.isEmpty then name
          else name ++ "(" ++ str_join ", " eargs ++ ")", r₁)) ∧
    (∀ (parse : String → Except String (List Token)) pargs d (r : MacroRegistry),
      expand_macro_call parse "define" [] pargs d r = .ok ("", r)) ∧
    (∀ (parse : String → Except String (List Token)) a pargs d (r : MacroRegistry),
      expand_macro_call parse "define" [a] pargs d r = .ok ("", r)) ∧
    (∀ (parse : String → Except String (List Token)) pargs d (r : MacroRegistry),
      expand_macro_call parse "ifdef" [] pargs d r = .ok ("", r)) := by
  refine ⟨?_, ?_, ?_, ?_, ?_, ?_⟩
  · intro parse args d r
    rw [expand_token.eq_def]
    simp
  · intro parse n args d r h
    rw [expand_token.eq_def]
    simp only [if_neg (show ¬(0 < n ∧ n ≤ args.length) by omega)]
  · intro parse name margs pargs d r r₁ eargs hb ha hg
    rw [emc_user parse name margs pargs d r hb, ha]
    simp only [hg]
    by_cases h : eargs.isEmpty = true
    · rw [if_pos h, if_pos h]
    · rw [if_neg h, if_neg h]
  · intro parse pargs d r
    rw [expand_macro_call.eq_def]
    rfl
  · intro parse a pargs d r
    rw [expand_macro_call.eq_def]
    rfl
  · intro parse pargs d r
    rw [expand_macro_call.eq_def, expand_ifdef.eq_def]
    rfl

/-- C8 witness: `$5` with one supplied argument expands to the empty string,
and a call to the undefined macro `mystery` is reproduced from its expanded
argument. -/
theorem claim_C8_witness :
    expand_token parse_lit (.Positional 5) ["a"] 0 [] = .ok ("", []) ∧
    expand_macro_call parse_lit "mystery" [.Literal "x"] [] 0 [] =
      .ok ("mystery(x)", []) := by
  constructor
  · exact claim_C8_permissive.2.1 parse_lit 5 ["a"] 0 [] (by decide)
  · have h := claim_C8_permissive.2.2.1 parse_lit "mystery" [.Literal "x"] [] 0
      [] [] ["x"] (by decide)
      (by simp [expand_arguments, expand_argument, expand_token]) rfl
    rw [h]
    rfl

/-- C1: a macro call whose name is not a builtin first expands all its
arguments eagerly and independently into strings (an argument that is a
macro call to a currently defined name is expanded in full through its
definition, a quoted group argument becomes its literal content between the
delimiters without expanding its inner tokens, any other argument is
expanded normally), and then, if the name is defined in the registry, the
stored body tokens are expanded with those strings as positional bindings at
depth+1 and the resulting text is re-parsed and expanded again at depth+1
with an empty positional-argument list. -/
theorem claim_C1_user_macro_expansion :
    (∀ (parse : String → Except String (List Token)) name margs pargs d
        (r r₁ : MacroRegistry) eargs body,
      is_builtin name = false →
      expand_arguments parse margs pargs d r = .ok (eargs, r₁) →
      r₁.get name = some body →
      expand_macro_call parse name margs pargs d r =
        match expand_tokens_with_depth parse body eargs (d + 1) r₁ with
        | .error e => .error e
        | .ok (expanded, r₂) => rescan parse expanded (d + 1) r₂) ∧
    (∀ (parse : String → Except String (List Token)) a rest pargs d (r : MacroRegistry),
      expand_arguments parse (a :: rest) pargs d r =
        match expand_argument parse a pargs d r with
        | .error e => .error e
        | .ok (s, r₁) =>
          match expand_arguments parse rest pargs d r₁ with
          | .error e => .error e
          | .ok (ss, r₂) => .ok (s :: ss, r₂)) ∧
    (∀ (parse : String → Except String (List Token)) name margs pargs d (r : MacroRegistry),
      is_builtin name = false → r.is_defined name = true →
      expand_argument parse (.MacroCall name margs) pargs d r =
        expand_macro_call parse name margs pargs d r) ∧
    (∀ (parse : String → Except String (List Token)) lex toks pargs d (r : MacroRegistry),
      is_quoted lex = true →
      expand_argument parse (.Group lex toks) pargs d r = .ok (unquote lex, r)) ∧
    (∀ (parse : String → Except String (List Token)) name margs pargs d (r : MacroRegistry),
      r.is_defined name = false →
      expand_argument parse (.MacroCall name margs) pargs d r =
        expand_token parse (.MacroCall name margs) pargs d r) ∧
    (∀ (parse : String → Except String (List Token)) lex toks pargs d (r : MacroRegistry),
      is_quoted lex = false →
      expand_argument parse (.Group lex toks) pargs d r =
        expand_tokens_with_depth parse toks pargs d r) ∧
    (∀ (parse : String → Except String (List Token)) n s pargs d (r : MacroRegistry),
      expand_argument parse (.Positional n) pargs d r =
        expand_token parse (.Positional n) pargs d r ∧
      expand_argument parse (.Literal s) pargs d r =
        expand_token parse (.Literal s) pargs d r) ∧
    (∀ (parse : String → Except String (List Token)) text ts d (r : MacroRegistry),
      d + 1 ≤ max_depth → parse text = .ok ts →
      rescan parse text (d + 1) r = expand_tokens_with_depth parse ts [] (d + 1) r) := by
  refine ⟨?_, ?_, ?_, ?_, ?_, ?_, ?_, ?_⟩
  · intro parse name margs pargs d r r₁ eargs body hb ha hg
    exact emc_user_defined parse name margs pargs d r r₁ eargs body hb ha hg
  · intro parse a rest pargs d r
    rw [expand_arguments.eq_def]
  · intro parse name margs pargs d r hb hdef
    rw [expand_argument.eq_def]
    simp only [hb, hdef, Bool.false_eq_true, if_false, if_true]
  · intro parse lex toks pargs d r hq
    rw [expand_argument.eq_def]
    simp only [hq, if_true]
  · intro parse name margs pargs d r hdef
    rw [expand_argument.eq_def]
    by_cases hb : is_builtin name = true
    · simp only [hb, if_true]
      rw [expand_token.eq_def]
    · simp only [Bool.not_eq_true] at hb
      simp only [hb, hdef, Bool.false_eq_true, if_false]
  · intro parse lex toks pargs d r hq
    rw [expand_argument.eq_def]
    simp only [hq, Bool.false_eq_true, if_false]
  · intro parse n s pargs d r
    constructor
    · rw [expand_argument.eq_def]
    · rw [expand_argument.eq_def]
  · intro parse text ts d r hd hp
    rw [rescan.eq_def, if_neg (by omega)]
    simp only [hp]

/-- C1 witness: calling `wrapper(inner)` with `wrapper` bound to `[$1]` and
`inner` bound to `EXPANDED` first expands the argument through `inner`'s
definition and then expands `wrapper`'s body with the resulting string. -/
theorem claim_C1_witness :
    expand_macro_call parse_lit "wrapper" [.MacroCall "inner" []] [] 0 regW =
      .ok ("[EXPANDED]", regW) := by
  have h := claim_C1_user_macro_expansion.1 parse_lit "wrapper"
    [.MacroCall "inner" []] [] 0 regW regW ["EXPANDED"]
    [.Literal "[", .Positional 1, .Literal "]"]
    (by decide)
    (by simp [expand_arguments, expand_argument, expand_macro_call,
      expand_tokens_with_depth, expand_tokens_go, expand_token, rescan,
      parse_lit, MacroRegistry.get, MacroRegistry.is_defined, is_builtin,
      regW, max_depth])
    rfl
  rw [h]
  simp [expand_tokens_with_depth, expand_tokens_go, expand_token, rescan,
    parse_lit, max_depth]

/-- C6: during rescan, a re-parse failure is non-fatal and the freshly
expanded text is returned exactly as-is, while a depth-counter overflow at
rescan time yields the depth-exceeded error, which aborts the enclosing
macro-call expansion. -/
theorem claim_C6_rescan :
    (∀ (parse : String → Except String (List Token)) text d (r : MacroRegistry),
      max_depth < d → rescan parse text d r = .error depthErr) ∧
    (∀ (parse : String → Except String (List Token)) text d (r : MacroRegistry) e,
      d ≤ max_depth → parse text = .error e → rescan parse text d r = .ok (text, r)) ∧
    (∀ (parse : String → Except String (List Token)) name margs pargs d
        (r r₁ r₂ : MacroRegistry) eargs body expanded e,
      is_builtin name = false →
      expand_arguments parse margs pargs d r = .ok (eargs, r₁) →
      r₁.get name = some body →
      expand_tokens_with_depth parse body eargs (d + 1) r₁ = .ok (expanded, r₂) →
      rescan parse expanded (d + 1) r₂ = .error e →
      expand_macro_call parse name margs pargs d r = .error e) := by
  refine ⟨?_, ?_, ?_⟩
  · intro parse text d r h
    rw [rescan.eq_def, if_pos h]
  · intro parse text d r e hd hp
    rw [rescan.eq_def, if_neg (by omega)]
    simp only [hp]
  · intro parse name margs pargs d r r₁ r₂ eargs body expanded e hb ha hg hbody hres
    rw [emc_user_defined parse name margs pargs d r r₁ eargs body hb ha hg]
    simp only [hbody, hres]

/-- C6 witness: rescan with an always-failing parser returns the text
unchanged, and rescan above the depth bound returns the depth error. -/
theorem claim_C6_witness :
    rescan parse_fail "x" 0 [] = .ok ("x", []) ∧
    rescan parse_lit "y" 101 [] = .error depthErr := by
  constructor
  · exact claim_C6_rescan.2.1 parse_fail "x" 0 [] "bad input" (by decide) rfl
  · exact claim_C6_rescan.1 parse_lit "y" 101 [] (by decide)

/-- C7: `expand_tokens_with_depth` fails with the depth-exceeded error,
producing no output, whenever the depth exceeds the maximum (100) before any
token is processed, and otherwise returns the in-order concatenation of each
token's expansion; consequently a macro whose body just invokes the macro
itself makes the top-level expansion return the depth-exceeded error. -/
theorem claim_C7_depth_guard :
    max_depth = 100 ∧
    (∀ (parse : String → Except String (List Token)) ts args d (r : MacroRegistry),
      max_depth < d →
      expand_tokens_with_depth parse ts args d r = .error depthErr) ∧
    (∀ (parse : String → Except String (List Token)) args d (r : MacroRegistry),
      d ≤ max_depth →
      expand_tokens_with_depth parse [] args d r = .ok ("", r)) ∧
    (∀ (parse : String → Except String (List Token)) t rest args d (r : MacroRegistry),
      d ≤ max_depth →
      expand_tokens_with_depth parse (t :: rest) args d r =
        match expand_token parse t args d r with
        | .error e => .error e
        | .ok (s, r₁) =>
          match expand_tokens_with_depth parse rest args d r₁ with
          | .error e => .error e
          | .ok (s', r₂) => .ok (s ++ s', r₂)) ∧
    (∀ (parse : String → Except String (List Token)) name (r : MacroRegistry),
      is_builtin name = false →
      r.get name = some [.MacroCall name []] →
      expand_tokens parse [.MacroCall name []] r = .error depthErr) := by
  refine ⟨rfl, ?_, ?_, ?_, ?_⟩
  · intro parse ts args d r h
    exact etd_exceeded parse ts args d r h
  · intro parse args d r h
    rw [etd_le parse [] args d r h]
    rw [expand_tokens_go.eq_def]
  · intro parse t rest args d r h
    have hrw : ∀ r' : MacroRegistry,
        expand_tokens_with_depth parse rest args d r' =
          expand_tokens_go parse rest args d r' :=
      fun r' => etd_le parse rest args d r' h
    rw [etd_le parse (t :: rest) args d r h]
    simp only [expand_tokens_go, hrw]
  · intro parse name r hb hg
    simp only [expand_tokens]
    rw [etd_le parse _ [] 0 r (by decide)]
    simp only [expand_tokens_go, expand_token]
    rw [emc_self_recursion parse name r hb hg 0 []]

/-- C7 witness: the registry binding `loop` to a body that calls `loop`
makes top-level expansion of `loop` fail with the depth error. -/
theorem claim_C7_witness :
    expand_tokens parse_lit [.MacroCall "loop" []]
      [("loop", [.MacroCall "loop" []])] = .error depthErr := by
  exact claim_C7_depth_guard.2.2.2.2 parse_lit "loop"
    [("loop", [.MacroCall "loop" []])] (by decide) rfl

/-- C9: `MacroRegistry::load` is atomic on failure: whenever it returns an
error the registry is exactly the one from before the call, because the
expander runs on a clone of the registry and the clone is written back only
when expansion succeeds. -/
theorem claim_C9_load_atomic :
    (∀ (parse : String → Except String (List Token)) (r : MacroRegistry) source e,
      (MacroRegistry.load parse r source).2 = .error e →
      (MacroRegistry.load parse r source).1 = r) ∧
    (∀ (parse : String → Except String (List Token)) (r r' : MacroRegistry) source out,
      expand parse source r = .ok (out, r') →
      MacroRegistry.load parse r source = (r', .ok ())) := by
  constructor
  · intro parse r source e h
    simp only [MacroRegistry.load] at h ⊢
    cases hexp : expand parse source r with
    | ok p =>
      obtain ⟨out, r₂⟩ := p
      rw [hexp] at h
      exact absurd h (by simp)
    | error e₂ =>
      rfl
  · intro parse r r₂ source out h
    simp only [MacroRegistry.load, h]

/-- C9 witness: a load whose source defines `loop` as calling itself and
then invokes it fails with the depth error and leaves the (empty) starting
registry unchanged, even though the define had taken effect on the clone. -/
theorem claim_C9_witness :
    (MacroRegistry.load parse_loop [] "src").1 = ([] : MacroRegistry) ∧
    (MacroRegistry.load parse_loop [] "src").2 = .error depthErr := by
  have hloop := emc_self_recursion parse_loop "loop"
    [("loop", [Token.MacroCall "loop" []])] (by decide) rfl
  have hdef : expand_macro_call parse_loop "define"
      [Token.Literal "loop", Token.MacroCall "loop" []] [] 0 [] =
      .ok ("", [("loop", [Token.MacroCall "loop" []])]) := by
    simp [expand_macro_call, expand_token, MacroRegistry.define,
      extract_body_tokens]
    rfl
  have hexp : expand parse_loop "src" [] = .error depthErr := by
    simp only [expand, parse_loop]
    rw [etd_le parse_loop _ [] 0 [] (by decide)]
    simp only [expand_tokens_go, expand_token, hdef, hloop]
  have hl : (MacroRegistry.load parse_loop [] "src").2 = .error depthErr := by
    rw [load_eq_error parse_loop [] "src" depthErr hexp]
  exact ⟨claim_C9_load_atomic.1 parse_loop [] "src" depthErr hl, hl⟩

end M4rs
